import Mathlib

/-!
Verification of the tree engine of the `jacob` repository
(`jacob/algorithms/trees.py`): `TreeNode`, `link_nodes`,
`populate_hierarchy` and `TreeTraverser.process_branch`.

Nodes are modelled as records held in an arena indexed by `Nat`
(the position of the node in the caller's flat list); object references
(`parent`, `children`, `previous_node`, `next_node`) become arena indices.
Python `int` becomes `Int`; Python list indexing (including negative
indices and `IndexError`) is modelled explicitly; exceptions become
`Except` errors.
-/

namespace Jacob

/-- One `TreeNode` of `jacob/algorithms/trees.py`.  The constructor
arguments `node_id`, `depth`, `parent`, `children` mirror `__init__`;
`next_node` / `previous_node` start out `None`. -/
@[ext]
structure TreeNode where
  node_id : Nat
  depth : Int := 0
  parent : Option Nat := none
  children : List Nat := []
  next_node : Option Nat := none
  previous_node : Option Nat := none
deriving Repr, DecidableEq

/-- The heap of node objects: index ↦ node.  Indices play the role of
Python object identity. -/
abbrev Arena := Nat → TreeNode

/-- In-place mutation of one node of the arena. -/
def updateNode (a : Arena) (i : Nat) (f : TreeNode → TreeNode) : Arena :=
  fun k => if k = i then f (a k) else a k

/-- Python list read `xs[i]` for a list of length `n`: a negative index
counts from the end, an out-of-range index raises `IndexError` (here:
`none`).  Returns the normalized non-negative index. -/
def pyIndex (n : Nat) (i : Int) : Option Nat :=
  if 0 ≤ i then
    if i < (n : Int) then some i.toNat else none
  else
    if 0 ≤ i + (n : Int) then some (i + (n : Int)).toNat else none

/-- Python `list.insert(i, x)`: a negative `i` counts from the end and is
clamped at 0, an `i` past the end appends. -/
def pyInsert (xs : List α) (i : Int) (x : α) : List α :=
  let j : Nat := if i < 0 then (i + (xs.length : Int)).toNat else min i.toNat xs.length
  xs.take j ++ x :: xs.drop j

/-- `TreeNode.insert_child`: `self._children.insert(index, node)`. -/
def insert_child (nd : TreeNode) (index : Int) (node : Nat) : TreeNode :=
  { nd with children := pyInsert nd.children index node }

/-- The scan of `TreeNode.insert_child_adjacent`:
`for i, n in enumerate(self._children): if n == existing_node: ...`.
`TreeNode.__eq__` compares `node_id`s, so the scan returns the position
of the first child whose id equals the target id. -/
def icaScan (a : Arena) (children : List Nat) (pos : Nat) (targetId : Nat) : Option Nat :=
  match children with
  | [] => none
  | c :: rest =>
    if (a c).node_id = targetId then some pos else icaScan a rest (pos + 1) targetId

/-- `TreeNode.insert_child_adjacent(existing_node, direction, node)` on the
node at arena index `p`: finds the first child equal (by id) to
`existing`, inserts `node` at Python index `i + direction` and returns
that index; returns `-1` and leaves the arena untouched when no child
matches. -/
def insert_child_adjacent (a : Arena) (p existing : Nat) (direction : Int)
    (node : Nat) : Int × Arena :=
  match icaScan a (a p).children 0 (a existing).node_id with
  | some i =>
    let insertion_index : Int := (i : Int) + direction
    (insertion_index, updateNode a p (fun nd => insert_child nd insertion_index node))
  | none => (-1, a)

/-- One iteration of the `link_nodes` loop at position `i`:
`node.previous_node = nodes[i-1]` (Python indexing: `-1` wraps to the last
element) and `node.next_node = nodes[i+1]`, each assignment skipped when
the read raises `IndexError`. -/
def linkStep (n : Nat) (a : Arena) (i : Nat) : Arena :=
  let a1 := match pyIndex n ((i : Int) - 1) with
    | some p => updateNode a i (fun nd => { nd with previous_node := some p })
    | none => a
  match pyIndex n ((i : Int) + 1) with
  | some q => updateNode a1 i (fun nd => { nd with next_node := some q })
  | none => a1

/-- `link_nodes(nodes)`: link the list of `n` tree nodes in place. -/
def link_nodes (n : Nat) (a : Arena) : Arena :=
  (List.range n).foldl (linkStep n) a

/-- The Python exceptions `populate_hierarchy` can raise:
`ValueError(f'invalid depth delta {delta}')`, `IndexError` from
`parent_stack[-1]` on an empty stack, and `AttributeError` from
`parent.depth` when `parent` is `None`. -/
inductive PyError where
  | invalidDelta (delta : Int)
  | indexError
  | attributeError
deriving Repr, DecidableEq

/-- The loop state of `populate_hierarchy`: the node heap and the
`parent_stack` of arena indices. -/
structure BuildState where
  arena : Arena
  stack : List Nat

/-- `node.change_parent(parent)` followed by `parent.append_child(node)`. -/
def assignParent (a : Arena) (i p : Nat) : Arena :=
  let a1 := updateNode a i (fun nd => { nd with parent := some p })
  updateNode a1 p (fun nd => { nd with children := nd.children ++ [i] })

/-- One iteration of the `populate_hierarchy` loop, for the node at
index `i`.  Mirrors the source branch by branch: the `depth == 0` reset,
the `depth_delta` computation from `previous_node` (`1` when there is no
predecessor), the three `depth_delta` regimes, and the final
`ValueError` for a delta greater than one.  `del parent_stack[-1:(-1+delta):-1]`
removes the last `|delta|` entries (or all of them when fewer remain). -/
def stepNode (st : BuildState) (i : Nat) : Except PyError BuildState :=
  let node := st.arena i
  if node.depth = 0 then
    .ok { st with stack := [i] }
  else
    let delta : Int :=
      match node.previous_node with
      | some q => node.depth - (st.arena q).depth
      | none => 1
    if delta < 0 then
      let stack2 := st.stack.take (st.stack.length - delta.natAbs)
      match stack2.getLast? with
      | none => .error .indexError
      | some parent => .ok ⟨assignParent st.arena i parent, stack2⟩
    else if delta = 0 then
      match st.stack.getLast? with
      | none => .error .indexError
      | some parent => .ok ⟨assignParent st.arena i parent, st.stack⟩
    else if delta = 1 then
      match node.previous_node with
      | none => .error .attributeError
      | some parent =>
        let stack2 :=
          if (st.arena parent).depth ≠ 0 then st.stack ++ [parent] else st.stack
        .ok ⟨assignParent st.arena i parent, stack2⟩
    else
      .error (.invalidDelta delta)

/-- The `for i, node in enumerate(nodes)` loop of `populate_hierarchy`,
running from position `i` for `fuel` more nodes. -/
def buildLoop : Nat → Nat → BuildState → Except PyError BuildState
  | 0, _, st => .ok st
  | fuel + 1, i, st =>
    match stepNode st i with
    | .error e => .error e
    | .ok st' => buildLoop fuel (i + 1) st'

/-- `populate_hierarchy(nodes)` over an arena of `n` nodes. -/
def populate_hierarchy (n : Nat) (a : Arena) : Except PyError Arena :=
  (buildLoop n 0 ⟨a, []⟩).map BuildState.arena

/-- The error, if any, produced by `populate_hierarchy` (used to state
concrete facts about the failure path). -/
def buildError (n : Nat) (a : Arena) : Option PyError :=
  match populate_hierarchy n a with
  | .error e => some e
  | .ok _ => none

/-- Whether `populate_hierarchy` failed with the `invalid depth delta`
`ValueError` (as opposed to succeeding or failing some other way). -/
def raisesInvalidDelta (n : Nat) (a : Arena) : Bool :=
  match populate_hierarchy n a with
  | .error (.invalidDelta _) => true
  | _ => false

/-- The observable trace of one `TreeTraverser` walk: the `(index, node)`
pairs that reach the body of the loop (in visit order), and the
`(index, node)` arguments of the `process_leaf` calls made. -/
structure TravAcc where
  visited : List (Nat × Nat) := []
  leafCalls : List (Nat × Nat) := []
deriving Repr, DecidableEq

/-- Python `node in nodelist` for a list of `TreeNode`s: membership via
`TreeNode.__eq__`, i.e. by `node_id`. -/
def nodeInList (a : Arena) (idx : Nat) (ids : List Nat) : Bool :=
  ids.contains (a idx).node_id

/-- The whitelist skip `whitelist is not None and node not in whitelist`. -/
def wlSkip (a : Arena) (node : Nat) : Option (List Nat) → Bool
  | some l => ! nodeInList a node l
  | none => false

/-- The blacklist skip `blacklist is not None and node in blacklist`. -/
def blSkip (a : Arena) (node : Nat) : Option (List Nat) → Bool
  | some l => nodeInList a node l
  | none => false

/-- `TreeTraverser.process_branch(nodes, whitelist, blacklist, start)` for
a traverser whose `process_leaf(i, node)` is the pure function `leafF`.
`fuel` bounds the recursion depth (the Python recursion is bounded by the
height of the structure; every concrete run below uses ample fuel).
Mirrors the source: the `max_depth` break, the whitelist `continue`, the
blacklist `continue`, recursion into `node.children` with `start=i` when
`node.is_parent`, otherwise a `process_leaf` call whose `True` result
breaks the current loop only — the recursive call's effect on enclosing
loops is whatever value it returns, which the source ignores. -/
def process_branch (a : Arena) (leafF : Nat → Nat → Bool) (max_depth : Int)
    (wl bl : Option (List Nat)) (fuel : Nat) (nodes : List Nat) (i : Nat)
    (acc : TravAcc) : TravAcc :=
  match fuel, nodes with
  | 0, _ => acc
  | _ + 1, [] => acc
  | fuel1 + 1, node :: rest =>
    if max_depth ≠ -1 ∧ (i : Int) > max_depth then
      acc
    else if wlSkip a node wl then
      process_branch a leafF max_depth wl bl fuel1 rest (i + 1) acc
    else if blSkip a node bl then
      process_branch a leafF max_depth wl bl fuel1 rest (i + 1) acc
    else
      let acc1 : TravAcc := { acc with visited := acc.visited ++ [(i, node)] }
      if (a node).children ≠ [] then
        let acc2 := process_branch a leafF max_depth wl bl fuel1 (a node).children i acc1
        process_branch a leafF max_depth wl bl fuel1 rest (i + 1) acc2
      else
        let acc2 : TravAcc := { acc1 with leafCalls := acc1.leafCalls ++ [(i, node)] }
        if leafF i node then acc2
        else process_branch a leafF max_depth wl bl fuel1 rest (i + 1) acc2

/-! ### Concrete inputs used by the witnesses and counterexamples -/

/-- An arena whose node `k` carries id `k` and the `k`-th listed depth
(the shape in which callers hand freshly constructed nodes to the
engine). -/
def arenaOfDepths (ds : List Int) : Arena :=
  fun k => { node_id := k, depth := ds.getD k 0 }

/-- The spec's running example: depths `A(0), B(1), C(2), D(1)`,
sequence-linked. -/
def abcdArena : Arena := link_nodes 4 (arenaOfDepths [0, 1, 2, 1])

/-- A sequence-linked list with depths `[1, 3]`: its second step is a
`+2` depth jump. -/
def jumpFromOneArena : Arena := link_nodes 2 (arenaOfDepths [1, 3])

/-- A sequence-linked list with depths `[0, 2]` (the spec's skip-level
example). -/
def zeroTwoArena : Arena := link_nodes 2 (arenaOfDepths [0, 2])

/-- A two-node list, not yet linked. -/
def pairArena : Arena := arenaOfDepths [0, 1]

/-- A parent (index 0) with children `[1, 2]`, plus a spare node `3`;
ids equal indices. -/
def insertArena : Arena :=
  fun k => { node_id := k, depth := 0, children := if k = 0 then [1, 2] else [] }

/-- A forest with depths `[0, 1, 1, 0]`: roots `0` and `3`, node `0`
having children `1, 2`. -/
def twoRootArena : Arena := link_nodes 4 (arenaOfDepths [0, 1, 1, 0])

/-- A sequence-linked list with depths `[0, 1, 1]`: one root with two
leaf children. -/
def sibArena : Arena := link_nodes 3 (arenaOfDepths [0, 1, 1])

/-- The forest `populate_hierarchy` builds from the `A B C D` input
(the error branch is unreachable on this input). -/
def abcdBuilt : Arena :=
  match populate_hierarchy 4 abcdArena with
  | .ok a => a
  | .error _ => abcdArena

/-- The forest built from depths `[0, 1, 1, 0]`. -/
def twoRootBuilt : Arena :=
  match populate_hierarchy 4 twoRootArena with
  | .ok a => a
  | .error _ => twoRootArena

/-- The forest built from depths `[0, 1, 1]`. -/
def sibBuilt : Arena :=
  match populate_hierarchy 3 sibArena with
  | .ok a => a
  | .error _ => sibArena

/-- The trace of an unbounded, unfiltered walk of the `A B C D` forest
by a traverser whose `process_leaf` always returns `True` (so it
requests a stop at its very first call, on `C`). -/
def abcdStopTrace : TravAcc :=
  process_branch abcdBuilt (fun _ _ => true) (-1) none none 16 [0] 0 ⟨[], []⟩

/-- The trace of the same always-`True` traverser on the forest built
from depths `[0, 1, 1]` (two leaves under one root). -/
def sibStopTrace : TravAcc :=
  process_branch sibBuilt (fun _ _ => true) (-1) none none 16 [0] 0 ⟨[], []⟩

/-- The trace of a `max_depth = 1` walk of the two-root forest
(depths `[0, 1, 1, 0]`) with a never-stopping leaf visitor. -/
def boundedTrace : TravAcc :=
  process_branch twoRootBuilt (fun _ _ => false) 1 none none 16 [0, 3] 0 ⟨[], []⟩

/-! ### Well-formed input and the parent-stack invariant -/

/-- The engine's precondition on the caller's node list: non-negative
depths, first node a root, sequence links as the Sequencer leaves them
on every position after the first, and nodes not yet associated
(`parent`/`children` clear, as `populate_hierarchy`'s docstring's
"unassociated tree nodes" requires). -/
structure WfInput (a0 : Arena) (n : Nat) : Prop where
  nonneg : ∀ k, k < n → 0 ≤ (a0 k).depth
  first : (a0 0).depth = 0
  linked : ∀ k, k < n → 1 ≤ k → (a0 k).previous_node = some (k - 1)
  clean : ∀ k, k < n → (a0 k).parent = none ∧ (a0 k).children = []

/-- The loop invariant of `populate_hierarchy`, after the nodes at
positions `0 … i-1` (with `1 ≤ i ≤ n`) have been processed without
error: depths and sequence links are untouched, nodes from `i` on are
untouched, the parent stack holds, bottom-up, the most recent node of
each depth `0 … max(depth(i-1),1) - 1`, every processed non-root node
has been attached to the nearest preceding node one level up, and every
child recorded so far came strictly after its parent. -/
structure Inv (a0 : Arena) (n i : Nat) (st : BuildState) : Prop where
  depthEq : ∀ k, (st.arena k).depth = (a0 k).depth
  prevEq : ∀ k, (st.arena k).previous_node = (a0 k).previous_node
  untouched : ∀ k, i ≤ k → st.arena k = a0 k
  slenRoot : (a0 (i - 1)).depth ≤ 0 → st.stack.length = 1
  slenDeep : 0 < (a0 (i - 1)).depth → (st.stack.length : Int) = (a0 (i - 1)).depth
  sdepth : ∀ t (ht : t < st.stack.length), (a0 (st.stack.get ⟨t, ht⟩)).depth = (t : Int)
  slt : ∀ t (ht : t < st.stack.length), st.stack.get ⟨t, ht⟩ < i
  srecent : ∀ t (ht : t < st.stack.length), ∀ k, st.stack.get ⟨t, ht⟩ < k → k < i →
    (a0 k).depth ≠ (t : Int)
  parents : ∀ j, j < i →
    ((a0 j).depth = 0 → (st.arena j).parent = none) ∧
    (0 < (a0 j).depth → ∃ p, (st.arena j).parent = some p ∧ p < j ∧
      (a0 p).depth = (a0 j).depth - 1 ∧
      ∀ k, p < k → k < j → (a0 k).depth ≠ (a0 j).depth - 1)
  childlt : ∀ j, j < n → ∀ c ∈ (st.arena j).children, j < c ∧ c < i

/-! ## Basic lemmas about arena updates -/

theorem updateNode_self (a : Arena) (i : Nat) (f : TreeNode → TreeNode) :
    updateNode a i f i = f (a i) := by
  simp [updateNode]

theorem updateNode_ne (a : Arena) (i k : Nat) (f : TreeNode → TreeNode) (h : k ≠ i) :
    updateNode a i f k = a k := by
  simp [updateNode, h]

/-! ## What `link_nodes` does -/

theorem linkStep_ne (n : Nat) (a : Arena) (i k : Nat) (h : k ≠ i) :
    linkStep n a i k = a k := by
  unfold linkStep
  rcases hp : pyIndex n ((i : Int) - 1) with _ | p <;>
    rcases hq : pyIndex n ((i : Int) + 1) with _ | q <;>
      simp [hp, hq, updateNode, h]

theorem linkStep_self_prev (n : Nat) (a : Arena) (i : Nat) :
    (linkStep n a i i).previous_node =
      match pyIndex n ((i : Int) - 1) with
      | some p => some p
      | none => (a i).previous_node := by
  unfold linkStep
  rcases hp : pyIndex n ((i : Int) - 1) with _ | p <;>
    rcases hq : pyIndex n ((i : Int) + 1) with _ | q <;>
      simp [hp, hq, updateNode]

theorem linkStep_self_next (n : Nat) (a : Arena) (i : Nat) :
    (linkStep n a i i).next_node =
      match pyIndex n ((i : Int) + 1) with
      | some q => some q
      | none => (a i).next_node := by
  unfold linkStep
  rcases hp : pyIndex n ((i : Int) - 1) with _ | p <;>
    rcases hq : pyIndex n ((i : Int) + 1) with _ | q <;>
      simp [hp, hq, updateNode]

theorem linkStep_self_fields (n : Nat) (a : Arena) (i : Nat) :
    (linkStep n a i i).depth = (a i).depth ∧
    (linkStep n a i i).parent = (a i).parent ∧
    (linkStep n a i i).children = (a i).children ∧
    (linkStep n a i i).node_id = (a i).node_id := by
  unfold linkStep
  rcases hp : pyIndex n ((i : Int) - 1) with _ | p <;>
    rcases hq : pyIndex n ((i : Int) + 1) with _ | q <;>
      simp [hp, hq, updateNode]

theorem linkStep_self_congr (n : Nat) (a b : Arena) (i : Nat) (h : a i = b i) :
    linkStep n a i i = linkStep n b i i := by
  unfold linkStep
  rcases hp : pyIndex n ((i : Int) - 1) with _ | p <;>
    rcases hq : pyIndex n ((i : Int) + 1) with _ | q <;>
      simp [hp, hq, updateNode, h]

theorem foldl_linkStep_not_mem (n : Nat) (l : List Nat) :
    ∀ (b : Arena) (k : Nat), k ∉ l → (l.foldl (linkStep n) b) k = b k := by
  induction l with
  | nil => intro b k _; rfl
  | cons x xs ih =>
    intro b k hk
    simp only [List.mem_cons, not_or] at hk
    simp only [List.foldl_cons]
    rw [ih _ _ hk.2]
    exact linkStep_ne n b x k hk.1

theorem foldl_linkStep_range (n : Nat) :
    ∀ (m : Nat) (b : Arena) (k : Nat), k < m →
      ((List.range m).foldl (linkStep n) b) k = linkStep n b k k := by
  intro m
  induction m with
  | zero => intro b k h; omega
  | succ m ih =>
    intro b k h
    rw [List.range_succ, List.foldl_append]
    simp only [List.foldl_cons, List.foldl_nil]
    by_cases hk : k = m
    · subst hk
      exact linkStep_self_congr n _ b k (foldl_linkStep_not_mem n _ b k (by simp))
    · rw [linkStep_ne n _ m k hk]
      exact ih b k (by omega)

theorem link_nodes_apply (n : Nat) (a : Arena) (k : Nat) (h : k < n) :
    link_nodes n a k = linkStep n a k k :=
  foldl_linkStep_range n n a k h

theorem link_nodes_untouched (n : Nat) (a : Arena) (k : Nat) (h : n ≤ k) :
    link_nodes n a k = a k :=
  foldl_linkStep_not_mem n _ a k (by simp; omega)

theorem pyIndex_sub_one (n k : Nat) (hk : k < n) :
    pyIndex n ((k : Int) - 1) = if k = 0 then some (n - 1) else some (k - 1) := by
  unfold pyIndex
  by_cases h0 : k = 0
  · subst h0
    rw [if_neg (by omega), if_pos (by omega), if_pos rfl]
    congr 1
    omega
  · rw [if_pos (by omega), if_pos (by omega), if_neg h0]
    congr 1
    omega

theorem pyIndex_add_one (n k : Nat) (hk : k < n) :
    pyIndex n ((k : Int) + 1) = if k = n - 1 then none else some (k + 1) := by
  unfold pyIndex
  by_cases h : k = n - 1
  · rw [if_pos (by omega), if_neg (by omega), if_pos h]
  · rw [if_pos (by omega), if_pos (by omega), if_neg h]
    congr 1

theorem link_nodes_prev (n : Nat) (a : Arena) (k : Nat) (h : k < n) :
    (link_nodes n a k).previous_node = if k = 0 then some (n - 1) else some (k - 1) := by
  rw [link_nodes_apply n a k h, linkStep_self_prev, pyIndex_sub_one n k h]
  by_cases h0 : k = 0 <;> simp [h0]

theorem link_nodes_next (n : Nat) (a : Arena) (k : Nat) (h : k < n) :
    (link_nodes n a k).next_node = if k = n - 1 then (a k).next_node else some (k + 1) := by
  rw [link_nodes_apply n a k h, linkStep_self_next, pyIndex_add_one n k h]
  by_cases h0 : k = n - 1 <;> simp [h0]

theorem link_nodes_depth (n : Nat) (a : Arena) (k : Nat) :
    (link_nodes n a k).depth = (a k).depth := by
  by_cases h : k < n
  · rw [link_nodes_apply n a k h]
    exact (linkStep_self_fields n a k).1
  · rw [link_nodes_untouched n a k (by omega)]

theorem link_nodes_parent (n : Nat) (a : Arena) (k : Nat) :
    (link_nodes n a k).parent = (a k).parent := by
  by_cases h : k < n
  · rw [link_nodes_apply n a k h]
    exact (linkStep_self_fields n a k).2.1
  · rw [link_nodes_untouched n a k (by omega)]

theorem link_nodes_children (n : Nat) (a : Arena) (k : Nat) :
    (link_nodes n a k).children = (a k).children := by
  by_cases h : k < n
  · rw [link_nodes_apply n a k h]
    exact (linkStep_self_fields n a k).2.2.1
  · rw [link_nodes_untouched n a k (by omega)]

theorem link_nodes_node_id (n : Nat) (a : Arena) (k : Nat) :
    (link_nodes n a k).node_id = (a k).node_id := by
  by_cases h : k < n
  · rw [link_nodes_apply n a k h]
    exact (linkStep_self_fields n a k).2.2.2
  · rw [link_nodes_untouched n a k (by omega)]

/-- C5 (code-bug evaluation): on the two-node list, `link_nodes` sets the
first node's `previous_node` to the *last* node (Python `nodes[-1]`
wraps around; the `except IndexError` arm meant to leave it `None` can
never fire for the previous-index read), while the claim — and the
unreachable handler — say the previous link is absent at position 0.
The `next` side behaves as claimed: `some 1` / `None`. -/
theorem link_nodes_position_zero_wraps :
    ((link_nodes 2 pairArena) 0).previous_node = some 1 ∧
    ((link_nodes 2 pairArena) 0).next_node = some 1 ∧
    ((link_nodes 2 pairArena) 1).previous_node = some 0 ∧
    ((link_nodes 2 pairArena) 1).next_node = none := by
  decide

/-- C8: `link_nodes` is idempotent — a second pass over the same list
reassigns exactly the same `previous_node`/`next_node` references and
leaves every other field untouched, so the whole arena is unchanged. -/
theorem link_nodes_idempotent (n : Nat) (a : Arena) :
    link_nodes n (link_nodes n a) = link_nodes n a := by
  funext k
  by_cases h : k < n
  · ext
    · rw [link_nodes_node_id, link_nodes_node_id]
    · rw [link_nodes_depth, link_nodes_depth]
    · rw [link_nodes_parent, link_nodes_parent]
    · rw [link_nodes_children, link_nodes_children]
    · rw [link_nodes_next n _ k h]
      by_cases h0 : k = n - 1
      · simp [h0]
      · rw [link_nodes_next n a k h, if_neg h0, if_neg h0]
    · rw [link_nodes_prev n _ k h, link_nodes_prev n a k h]
  · rw [link_nodes_untouched n _ k (by omega)]

/-! ## What `insert_child_adjacent` does -/

theorem icaScan_none (a : Arena) (cs : List Nat) (tid : Nat)
    (h : ∀ c ∈ cs, (a c).node_id ≠ tid) : ∀ pos, icaScan a cs pos tid = none := by
  induction cs with
  | nil => intro _; rfl
  | cons c rest ih =>
    intro pos
    unfold icaScan
    rw [if_neg (h c (by simp))]
    exact ih (fun x hx => h x (by simp [hx])) (pos + 1)

theorem icaScan_some (a : Arena) :
    ∀ (cs : List Nat) (i0 : Nat) (hi0 : i0 < cs.length) (tid pos : Nat),
      (a (cs.get ⟨i0, hi0⟩)).node_id = tid →
      (∀ t (ht : t < i0), (a (cs.get ⟨t, ht.trans hi0⟩)).node_id ≠ tid) →
      icaScan a cs pos tid = some (pos + i0) := by
  intro cs
  induction cs with
  | nil => intro i0 hi0; simp at hi0
  | cons c rest ih =>
    intro i0 hi0 tid pos hhit hmiss
    unfold icaScan
    cases i0 with
    | zero =>
      have hc : (a c).node_id = tid := hhit
      rw [if_pos hc]
      rfl
    | succ i1 =>
      have hc : (a c).node_id ≠ tid := hmiss 0 (Nat.succ_pos i1)
      rw [if_neg hc]
      rw [ih i1 (by simpa using Nat.lt_of_succ_lt_succ hi0) tid (pos + 1) hhit
        (fun t ht => hmiss (t + 1) (Nat.succ_lt_succ ht))]
      congr 1
      omega

theorem icaScan_some_zero (a : Arena) (cs : List Nat) (i0 : Nat) (hi0 : i0 < cs.length)
    (tid : Nat) (hhit : (a (cs.get ⟨i0, hi0⟩)).node_id = tid)
    (hmiss : ∀ t (ht : t < i0), (a (cs.get ⟨t, ht.trans hi0⟩)).node_id ≠ tid) :
    icaScan a cs 0 tid = some i0 := by
  rw [icaScan_some a cs i0 hi0 tid 0 hhit hmiss]
  rw [Nat.zero_add]

/-- C7: a call whose reference child is absent (no current child has the
id of `existing`) returns the sentinel `-1` and leaves the whole arena —
in particular the children list — unmodified; no exception is raised
(the function is total). -/
theorem insert_child_adjacent_not_found (a : Arena) (p existing node : Nat) (d : Int)
    (h : ∀ c ∈ (a p).children, (a c).node_id ≠ (a existing).node_id) :
    insert_child_adjacent a p existing d node = (-1, a) := by
  unfold insert_child_adjacent
  rw [icaScan_none a _ _ h 0]

/-- Witness for C7 at a concrete input: the parent's children are
`[1, 2]` (ids `1, 2`), the reference node has id `4`. -/
theorem insert_child_adjacent_not_found_witness :
    (∀ c ∈ (insertArena 0).children,
      (insertArena c).node_id ≠ (insertArena 4).node_id) ∧
    insert_child_adjacent insertArena 0 4 1 5 = (-1, insertArena) :=
  ⟨by decide, insert_child_adjacent_not_found insertArena 0 4 5 1 (by decide)⟩

theorem pyInsert_nonneg (xs : List α) (i : Int) (x : α) (h0 : 0 ≤ i)
    (h1 : i.toNat ≤ xs.length) :
    pyInsert xs i x = xs.take i.toNat ++ x :: xs.drop i.toNat := by
  simp only [pyInsert]
  rw [if_neg (by omega), Nat.min_eq_left h1]

/-- C6 (amended): when the first child with the id of `existing` sits at
position `i0`, the call inserts `node` at Python list index
`i0 + direction` and returns `i0 + direction`; for `direction = +1` the
node lands immediately after the existing child, and for
`direction = -1` with `i0 ≥ 1` it lands at `i0 - 1` — the slot before
the existing child's former predecessor, not immediately before the
existing child itself.  In both cases the returned value is the index at
which the node resides, and no other node of the arena changes. -/
theorem insert_child_adjacent_found (a : Arena) (p existing node : Nat) (d : Int)
    (i0 : Nat) (hi0 : i0 < (a p).children.length)
    (hhit : (a ((a p).children.get ⟨i0, hi0⟩)).node_id = (a existing).node_id)
    (hmiss : ∀ t (ht : t < i0),
      (a ((a p).children.get ⟨t, ht.trans hi0⟩)).node_id ≠ (a existing).node_id)
    (hd : d = 1 ∨ (d = -1 ∧ 1 ≤ i0)) :
    (insert_child_adjacent a p existing d node).1 = (i0 : Int) + d ∧
    ((insert_child_adjacent a p existing d node).2 p).children =
      (a p).children.take ((i0 : Int) + d).toNat ++
        node :: (a p).children.drop ((i0 : Int) + d).toNat ∧
    (((insert_child_adjacent a p existing d node).2 p).children[((i0 : Int) + d).toNat]?
      = some node) ∧
    ∀ k, k ≠ p → (insert_child_adjacent a p existing d node).2 k = a k := by
  have htoNat : ((i0 : Int) + d).toNat ≤ (a p).children.length := by
    rcases hd with h1 | ⟨hm, hge⟩ <;> omega
  have hnn : 0 ≤ (i0 : Int) + d := by
    rcases hd with h1 | ⟨hm, hge⟩ <;> omega
  have hmain : insert_child_adjacent a p existing d node =
      ((i0 : Int) + d, updateNode a p (fun nd => insert_child nd ((i0 : Int) + d) node)) := by
    unfold insert_child_adjacent
    rw [icaScan_some_zero a (a p).children i0 hi0 _ hhit hmiss]
  have h1 : (insert_child_adjacent a p existing d node).1 = (i0 : Int) + d := by
    rw [hmain]
  have h2 : (insert_child_adjacent a p existing d node).2 =
      updateNode a p (fun nd => insert_child nd ((i0 : Int) + d) node) := by
    rw [hmain]
  refine ⟨h1, ?_, ?_, ?_⟩
  · rw [h2, updateNode_self]
    simp only [insert_child]
    exact pyInsert_nonneg _ _ _ hnn htoNat
  · rw [h2, updateNode_self]
    simp only [insert_child]
    rw [pyInsert_nonneg _ _ _ hnn htoNat]
    rw [List.getElem?_append_right (by simp [htoNat])]
    simp [htoNat]
  · intro k hk
    rw [h2]
    exact updateNode_ne a p k _ hk

/-- Witness for C6 (amended) at a concrete input: children `[1, 2]`,
existing child id `1` at position 0, `direction = +1`, new node `3`:
the call returns `1`, the children become `[1, 3, 2]` (node `3`
immediately after child `1`, at the returned index), and other nodes
are untouched. -/
theorem insert_child_adjacent_found_witness :
    ((insertArena ((insertArena 0).children.get ⟨0, by decide⟩)).node_id
      = (insertArena 1).node_id) ∧
    (insert_child_adjacent insertArena 0 1 1 3).1 = (0 : Int) + 1 ∧
    ((insert_child_adjacent insertArena 0 1 1 3).2 0).children =
      (insertArena 0).children.take (((0 : Int) + 1)).toNat ++
        3 :: (insertArena 0).children.drop (((0 : Int) + 1)).toNat ∧
    (((insert_child_adjacent insertArena 0 1 1 3).2 0).children[(((0 : Int) + 1)).toNat]?
      = some 3) ∧
    ∀ k, k ≠ 0 → (insert_child_adjacent insertArena 0 1 1 3).2 k = insertArena k :=
  ⟨by decide,
    insert_child_adjacent_found insertArena 0 1 3 1 0 (by decide) (by decide)
      (fun t ht => absurd ht (Nat.not_lt_zero t)) (Or.inl rfl)⟩

/-- C6 (counterexample): children `[1, 2]`, existing child id `2` at
position 1, `direction = -1`, new node `3`.  The claim says the node is
inserted immediately before the existing child; instead the insertion
index is `1 + (-1) = 0`, the children become `[3, 1, 2]`, and the
element immediately after the inserted node is child `1`, not the
existing child `2`. -/
theorem insert_child_adjacent_before_counterexample :
    (insert_child_adjacent insertArena 0 2 (-1) 3).1 = 0 ∧
    ((insert_child_adjacent insertArena 0 2 (-1) 3).2 0).children = [3, 1, 2] ∧
    ¬ (((insert_child_adjacent insertArena 0 2 (-1) 3).2 0).children[(0 + 1 : Nat)]?
        = some 2) := by
  decide

/-- C10: a successful insertion can return the not-found sentinel `-1`:
with the existing child at position 0 and `direction = -1` the insertion
index is `-1`, so the node is inserted before the last element (children
`[1, 2]` become `[1, 3, 2]`) and the call returns `-1` — exactly the
value returned when the reference child is missing (second half, where
no child has id `4` and the children stay `[1, 2]`). -/
theorem insert_child_adjacent_sentinel_collision :
    (insert_child_adjacent insertArena 0 1 (-1) 3).1 = -1 ∧
    ((insert_child_adjacent insertArena 0 1 (-1) 3).2 0).children = [1, 3, 2] ∧
    (insert_child_adjacent insertArena 0 4 (-1) 3).1 = -1 ∧
    ((insert_child_adjacent insertArena 0 4 (-1) 3).2 0).children = [1, 2] := by
  decide

/-! ## What `process_branch` does -/

theorem process_branch_cons (a : Arena) (leafF : Nat → Nat → Bool) (md : Int)
    (wl bl : Option (List Nat)) (f : Nat) (node : Nat) (rest : List Nat) (i : Nat)
    (acc : TravAcc) :
    process_branch a leafF md wl bl (f + 1) (node :: rest) i acc =
      if md ≠ -1 ∧ (i : Int) > md then acc
      else if wlSkip a node wl then process_branch a leafF md wl bl f rest (i + 1) acc
      else if blSkip a node bl then process_branch a leafF md wl bl f rest (i + 1) acc
      else
        let acc1 : TravAcc := { acc with visited := acc.visited ++ [(i, node)] }
        if (a node).children ≠ [] then
          process_branch a leafF md wl bl f rest (i + 1)
            (process_branch a leafF md wl bl f (a node).children i acc1)
        else
          let acc2 : TravAcc := { acc1 with leafCalls := acc1.leafCalls ++ [(i, node)] }
          if leafF i node then acc2
          else process_branch a leafF md wl bl f rest (i + 1) acc2 := by
  rfl

/-- C3 (counterexample): on the forest built from depths
`A(0), B(1), C(2), D(1)` (arena indices `0..3`), the always-`True` leaf
visitor's first call is on `C` (index 2 in the arena) — yet `D`
(arena index 3) is still visited afterwards: the `break` on a `True`
result does not unwind the enclosing recursive calls. -/
theorem process_branch_no_unwind_counterexample :
    abcdStopTrace.leafCalls[0]? = some (0, 2) ∧
    (1, 3) ∈ abcdStopTrace.leafCalls := by
  decide

/-- C3 (amended): a `True` result from `process_leaf` stops only the
sibling loop the leaf belongs to; enclosing levels carry on.  On the
`A B C D` forest the walk still visits `D` after `C`'s `True`
(leaf trace `[C, D]`), while on the forest from depths `[0, 1, 1]` the
`True` at the first leaf does suppress that leaf's own next sibling
(leaf trace `[B]` only, node `2` never visited). -/
theorem process_branch_break_is_local :
    abcdStopTrace.leafCalls = [(0, 2), (1, 3)] ∧
    abcdStopTrace.visited = [(0, 0), (0, 1), (0, 2), (1, 3)] ∧
    sibStopTrace.leafCalls = [(0, 1)] ∧
    sibStopTrace.visited = [(0, 0), (0, 1)] := by
  decide

/-- C4 (counterexample): walking the forest built from depths
`[0, 1, 1, 0]` with `max_depth = 1` visits four nodes — more than
`max_depth + 1 = 2` — and the enumeration index restarts at the parent's
index inside each recursive call (both node `0` and its first child are
visited at index `0`), so the index is not a single global visitation
counter and the walk is not stopped after `max_depth + 1` nodes. -/
theorem process_branch_max_depth_counterexample :
    boundedTrace.visited = [(0, 0), (0, 1), (1, 2), (1, 3)] ∧
    ¬ boundedTrace.visited.length ≤ 1 + 1 := by
  decide

/-- C4 (amended): when `max_depth` is bounded, each sibling loop breaks
as soon as its own enumeration index — seeded at the call's `start`,
which recursive calls inherit from the parent's index — exceeds
`max_depth`, so every node visited anywhere in the walk is visited at an
index `≤ max_depth` (the total number of visits, however, may exceed
`max_depth + 1`). -/
theorem process_branch_visited_index_le (a : Arena) (leafF : Nat → Nat → Bool)
    (md : Int) (wl bl : Option (List Nat)) (hmd : md ≠ -1) :
    ∀ (fuel : Nat) (nodes : List Nat) (i : Nat) (acc : TravAcc),
      (∀ v ∈ acc.visited, (v.1 : Int) ≤ md) →
      ∀ v ∈ (process_branch a leafF md wl bl fuel nodes i acc).visited,
        (v.1 : Int) ≤ md := by
  intro fuel
  induction fuel with
  | zero => intro nodes i acc hacc; exact hacc
  | succ f ih =>
    intro nodes i acc hacc
    cases nodes with
    | nil => exact hacc
    | cons node rest =>
      rw [process_branch_cons]
      by_cases hstop : md ≠ -1 ∧ (i : Int) > md
      · rw [if_pos hstop]; exact hacc
      · rw [if_neg hstop]
        have hi : (i : Int) ≤ md := by
          by_contra hc
          exact hstop ⟨hmd, by omega⟩
        by_cases hwl : wlSkip a node wl
        · rw [if_pos hwl]; exact ih rest (i + 1) acc hacc
        · rw [if_neg hwl]
          by_cases hbl : blSkip a node bl
          · rw [if_pos hbl]; exact ih rest (i + 1) acc hacc
          · rw [if_neg hbl]
            have hacc1 : ∀ v ∈ (acc.visited ++ [(i, node)]), (v.1 : Int) ≤ md := by
              intro v hv
              rcases List.mem_append.mp hv with h | h
              · exact hacc v h
              · simp at h; subst h; exact hi
            by_cases hpar : (a node).children ≠ []
            · rw [if_pos hpar]
              exact ih rest (i + 1) _ (ih (a node).children i _ hacc1)
            · rw [if_neg hpar]
              by_cases hlf : leafF i node
              · rw [if_pos hlf]; exact hacc1
              · rw [if_neg hlf]
                exact ih rest (i + 1) _ hacc1

/-- Witness for C4 (amended) on the concrete bounded walk: every entry
of the visited trace of the `max_depth = 1` walk of the two-root forest
has index at most `1`. -/
theorem process_branch_visited_index_le_witness :
    ((1 : Int) ≠ -1) ∧
    (∀ v ∈ (⟨[], []⟩ : TravAcc).visited, (v.1 : Int) ≤ 1) ∧
    ∀ v ∈ (process_branch twoRootBuilt (fun _ _ => false) 1 none none 16 [0, 3] 0
      ⟨[], []⟩).visited, (v.1 : Int) ≤ 1 :=
  ⟨by decide, by simp,
    process_branch_visited_index_le twoRootBuilt (fun _ _ => false) 1 none none
      (by decide) 16 [0, 3] 0 ⟨[], []⟩ (by simp)⟩

/-! ## What `populate_hierarchy` does -/

theorem assignParent_depth (a : Arena) (i p k : Nat) :
    (assignParent a i p k).depth = (a k).depth := by
  simp only [assignParent, updateNode]
  split_ifs <;> rfl

theorem assignParent_prev (a : Arena) (i p k : Nat) :
    (assignParent a i p k).previous_node = (a k).previous_node := by
  simp only [assignParent, updateNode]
  split_ifs <;> rfl

theorem assignParent_parent (a : Arena) (i p k : Nat) :
    (assignParent a i p k).parent = if k = i then some p else (a k).parent := by
  simp only [assignParent, updateNode]
  split_ifs <;> rfl

theorem assignParent_children (a : Arena) (i p k : Nat) :
    (assignParent a i p k).children =
      if k = p then (a k).children ++ [i] else (a k).children := by
  simp only [assignParent, updateNode]
  split_ifs <;> rfl

theorem assignParent_untouched (a : Arena) (i p k : Nat) (h1 : k ≠ i) (h2 : k ≠ p) :
    assignParent a i p k = a k := by
  simp only [assignParent, updateNode, if_neg h1, if_neg h2]

theorem stepNode_root (st : BuildState) (i : Nat) (h : (st.arena i).depth = 0) :
    stepNode st i = .ok { st with stack := [i] } := by
  unfold stepNode
  rw [if_pos h]

theorem stepNode_neg (st : BuildState) (i q p : Nat) (delta : Int)
    (h0 : (st.arena i).depth ≠ 0)
    (hprev : (st.arena i).previous_node = some q)
    (hval : (st.arena i).depth - (st.arena q).depth = delta)
    (hd : delta < 0)
    (hlast : (st.stack.take (st.stack.length - delta.natAbs)).getLast? = some p) :
    stepNode st i = .ok ⟨assignParent st.arena i p,
      st.stack.take (st.stack.length - delta.natAbs)⟩ := by
  simp only [stepNode, hprev, if_neg h0, hval]
  rw [if_pos hd, hlast]

theorem stepNode_same (st : BuildState) (i q p : Nat)
    (h0 : (st.arena i).depth ≠ 0)
    (hprev : (st.arena i).previous_node = some q)
    (hval : (st.arena i).depth - (st.arena q).depth = 0)
    (hlast : st.stack.getLast? = some p) :
    stepNode st i = .ok ⟨assignParent st.arena i p, st.stack⟩ := by
  simp only [stepNode, hprev, if_neg h0, hval]
  rw [hlast]
  norm_num

theorem stepNode_down_push (st : BuildState) (i q : Nat)
    (h0 : (st.arena i).depth ≠ 0)
    (hprev : (st.arena i).previous_node = some q)
    (hval : (st.arena i).depth - (st.arena q).depth = 1)
    (hq : (st.arena q).depth ≠ 0) :
    stepNode st i = .ok ⟨assignParent st.arena i q, st.stack ++ [q]⟩ := by
  simp only [stepNode, hprev, if_neg h0, hval]
  rw [if_pos hq]
  norm_num

theorem stepNode_down_nopush (st : BuildState) (i q : Nat)
    (h0 : (st.arena i).depth ≠ 0)
    (hprev : (st.arena i).previous_node = some q)
    (hval : (st.arena i).depth - (st.arena q).depth = 1)
    (hq : ¬ (st.arena q).depth ≠ 0) :
    stepNode st i = .ok ⟨assignParent st.arena i q, st.stack⟩ := by
  simp only [stepNode, hprev, if_neg h0, hval]
  rw [if_neg hq]
  norm_num

theorem stepNode_bad (st : BuildState) (i q : Nat) (delta : Int)
    (h0 : (st.arena i).depth ≠ 0)
    (hprev : (st.arena i).previous_node = some q)
    (hval : (st.arena i).depth - (st.arena q).depth = delta)
    (hd : 1 < delta) :
    stepNode st i = .error (.invalidDelta delta) := by
  simp only [stepNode, hprev, if_neg h0, hval]
  rw [if_neg (by omega), if_neg (by omega), if_neg (by omega)]

theorem getLast?_eq_get (S : List Nat) (h : 0 < S.length) :
    S.getLast? = some (S.get ⟨S.length - 1, by omega⟩) := by
  rw [List.getLast?_eq_getElem?, List.getElem?_eq_getElem (by omega)]
  simp [List.get_eq_getElem]

theorem take_get (S : List Nat) (m t : Nat) (h : t < (S.take m).length) :
    (S.take m).get ⟨t, h⟩ = S.get ⟨t, by simp at h; omega⟩ := by
  simp only [List.get_eq_getElem]
  exact List.getElem_take ..

/-- The parts of the invariant that depend only on the arena after
`assignParent st.arena i p`, given that `p` is the correct parent for
node `i` (one level up, nearest). -/
theorem inv_assign (a0 : Arena) (n i : Nat) (st : BuildState) (inv : Inv a0 n i st)
    (hin : i < n) (p : Nat) (hp : p < i)
    (hdp : (a0 p).depth = (a0 i).depth - 1)
    (hnear : ∀ k, p < k → k < i → (a0 k).depth ≠ (a0 i).depth - 1)
    (hdpos : 0 < (a0 i).depth) :
    (∀ k, (assignParent st.arena i p k).depth = (a0 k).depth) ∧
    (∀ k, (assignParent st.arena i p k).previous_node = (a0 k).previous_node) ∧
    (∀ k, i + 1 ≤ k → assignParent st.arena i p k = a0 k) ∧
    (∀ j, j < i + 1 →
      ((a0 j).depth = 0 → (assignParent st.arena i p j).parent = none) ∧
      (0 < (a0 j).depth → ∃ q, (assignParent st.arena i p j).parent = some q ∧
        q < j ∧ (a0 q).depth = (a0 j).depth - 1 ∧
        ∀ k, q < k → k < j → (a0 k).depth ≠ (a0 j).depth - 1)) ∧
    (∀ j, j < n → ∀ c ∈ (assignParent st.arena i p j).children, j < c ∧ c < i + 1) := by
  refine ⟨?_, ?_, ?_, ?_, ?_⟩
  · intro k
    rw [assignParent_depth]
    exact inv.depthEq k
  · intro k
    rw [assignParent_prev]
    exact inv.prevEq k
  · intro k hk
    rw [assignParent_untouched st.arena i p k (by omega) (by omega)]
    exact inv.untouched k (by omega)
  · intro j hj
    by_cases hji : j = i
    · subst hji
      refine ⟨fun h => absurd h (by omega), fun _ => ⟨p, ?_, hp, hdp, hnear⟩⟩
      rw [assignParent_parent, if_pos rfl]
    · have hj' : j < i := by omega
      have hpar : (assignParent st.arena i p j).parent = (st.arena j).parent := by
        rw [assignParent_parent, if_neg hji]
      rw [hpar]
      exact inv.parents j hj'
  · intro j hjn c hc
    rw [assignParent_children] at hc
    by_cases hjp : j = p
    · rw [if_pos hjp] at hc
      rcases List.mem_append.mp hc with h | h
      · have := inv.childlt j hjn c h
        omega
      · simp at h
        omega
    · rw [if_neg hjp] at hc
      have := inv.childlt j hjn c hc
      omega

theorem inv_step_root (a0 : Arena) (n i : Nat) (st : BuildState) (wf : WfInput a0 n)
    (inv : Inv a0 n i st) (hin : i < n) (h0 : (a0 i).depth = 0) :
    Inv a0 n (i + 1) ⟨st.arena, [i]⟩ := by
  refine ⟨inv.depthEq, inv.prevEq, ?_, ?_, ?_, ?_, ?_, ?_, ?_, ?_⟩
  · intro k hk
    exact inv.untouched k (by omega)
  · intro _
    rfl
  · intro hpos
    simp only [Nat.add_sub_cancel] at hpos
    omega
  · intro t ht
    have ht0 : t = 0 := by simpa using ht
    subst ht0
    simpa using h0
  · intro t ht
    have ht0 : t = 0 := by simpa using ht
    subst ht0
    simp only [List.get]
    omega
  · intro t ht k h1 h2
    have ht0 : t = 0 := by simpa using ht
    subst ht0
    simp only [List.get] at h1
    omega
  · intro j hj
    by_cases hji : j = i
    · subst hji
      refine ⟨fun _ => ?_, fun hpos => absurd hpos (by omega)⟩
      rw [inv.untouched j le_rfl]
      exact (wf.clean j hin).1
    · exact inv.parents j (by omega)
  · intro j hjn c hc
    have := inv.childlt j hjn c hc
    omega

theorem inv_step_neg (a0 : Arena) (n i : Nat) (st : BuildState) (wf : WfInput a0 n)
    (inv : Inv a0 n i st) (hi1 : 1 ≤ i) (hin : i < n)
    (h0 : (a0 i).depth ≠ 0)
    (hd : (a0 i).depth - (a0 (i - 1)).depth < 0) :
    ∃ p, ((st.stack.take
        (st.stack.length - ((a0 i).depth - (a0 (i - 1)).depth).natAbs)).getLast?
        = some p) ∧
      Inv a0 n (i + 1) ⟨assignParent st.arena i p,
        st.stack.take
          (st.stack.length - ((a0 i).depth - (a0 (i - 1)).depth).natAbs)⟩ := by
  have hdpos : 0 < (a0 i).depth := by
    have := wf.nonneg i hin
    omega
  have hdl : 0 < (a0 (i - 1)).depth := by omega
  have hlen : (st.stack.length : Int) = (a0 (i - 1)).depth := inv.slenDeep hdl
  have hnab : ((((a0 i).depth - (a0 (i - 1)).depth).natAbs : Nat) : Int)
      = (a0 (i - 1)).depth - (a0 i).depth := by
    rw [Int.ofNat_natAbs_of_nonpos (by omega)]
    omega
  set m := st.stack.length - ((a0 i).depth - (a0 (i - 1)).depth).natAbs with hm
  have hmi : (m : Int) = (a0 i).depth := by omega
  have hlenS : (st.stack.take m).length = m := by
    rw [List.length_take]
    omega
  have hposS : 0 < (st.stack.take m).length := by omega
  have ht0 : m - 1 < st.stack.length := by omega
  have hlast : (st.stack.take m).getLast? = some (st.stack.get ⟨m - 1, ht0⟩) := by
    rw [getLast?_eq_get _ hposS, take_get]
    simp only [hlenS]
  refine ⟨st.stack.get ⟨m - 1, ht0⟩, hlast, ?_⟩
  have hplt : st.stack.get ⟨m - 1, ht0⟩ < i := inv.slt _ ht0
  have hpdep := inv.sdepth (m - 1) ht0
  have hpd : (a0 (st.stack.get ⟨m - 1, ht0⟩)).depth = (a0 i).depth - 1 := by omega
  have hpnear : ∀ k, st.stack.get ⟨m - 1, ht0⟩ < k → k < i →
      (a0 k).depth ≠ (a0 i).depth - 1 := by
    intro k h1 h2
    have := inv.srecent (m - 1) ht0 k h1 h2
    omega
  obtain ⟨hdepEq, hprevEq, huntouched, hparents, hchildlt⟩ :=
    inv_assign a0 n i st inv hin _ hplt hpd hpnear hdpos
  refine ⟨hdepEq, hprevEq, huntouched, ?_, ?_, ?_, ?_, ?_, hparents, hchildlt⟩
  · intro h
    simp only [Nat.add_sub_cancel] at h
    omega
  · intro _
    simp only [Nat.add_sub_cancel]
    rw [hlenS]
    omega
  · intro t ht
    rw [take_get]
    exact inv.sdepth t (by simp at ht; omega)
  · intro t ht
    rw [take_get]
    exact Nat.lt_succ_of_lt (inv.slt t (by simp at ht; omega))
  · intro t ht k h1 h2
    rw [take_get] at h1
    by_cases hk : k = i
    · subst hk
      have htm : t < m := by
        rw [hlenS] at ht
        omega
      omega
    · exact inv.srecent t (by simp at ht; omega) k h1 (by omega)

theorem inv_step_same (a0 : Arena) (n i : Nat) (st : BuildState) (wf : WfInput a0 n)
    (inv : Inv a0 n i st) (hi1 : 1 ≤ i) (hin : i < n)
    (h0 : (a0 i).depth ≠ 0)
    (hd : (a0 i).depth - (a0 (i - 1)).depth = 0) :
    ∃ p, st.stack.getLast? = some p ∧
      Inv a0 n (i + 1) ⟨assignParent st.arena i p, st.stack⟩ := by
  have hdpos : 0 < (a0 i).depth := by
    have := wf.nonneg i hin
    omega
  have hdl : 0 < (a0 (i - 1)).depth := by omega
  have hlen : (st.stack.length : Int) = (a0 (i - 1)).depth := inv.slenDeep hdl
  have hpos : 0 < st.stack.length := by omega
  have ht0 : st.stack.length - 1 < st.stack.length := by omega
  refine ⟨st.stack.get ⟨st.stack.length - 1, ht0⟩, getLast?_eq_get _ hpos, ?_⟩
  have hplt : st.stack.get ⟨st.stack.length - 1, ht0⟩ < i := inv.slt _ ht0
  have hpdep := inv.sdepth (st.stack.length - 1) ht0
  have hpd : (a0 (st.stack.get ⟨st.stack.length - 1, ht0⟩)).depth
      = (a0 i).depth - 1 := by omega
  have hpnear : ∀ k, st.stack.get ⟨st.stack.length - 1, ht0⟩ < k → k < i →
      (a0 k).depth ≠ (a0 i).depth - 1 := by
    intro k h1 h2
    have := inv.srecent (st.stack.length - 1) ht0 k h1 h2
    omega
  obtain ⟨hdepEq, hprevEq, huntouched, hparents, hchildlt⟩ :=
    inv_assign a0 n i st inv hin _ hplt hpd hpnear hdpos
  refine ⟨hdepEq, hprevEq, huntouched, ?_, ?_, ?_, ?_, ?_, hparents, hchildlt⟩
  · intro h
    simp only [Nat.add_sub_cancel] at h
    omega
  · intro _
    simp only [Nat.add_sub_cancel]
    omega
  · exact inv.sdepth
  · intro t ht
    exact Nat.lt_succ_of_lt (inv.slt t ht)
  · intro t ht k h1 h2
    by_cases hk : k = i
    · subst hk
      have ht' : t < st.stack.length := ht
      omega
    · exact inv.srecent t ht k h1 (by omega)

theorem inv_step_down_nopush (a0 : Arena) (n i : Nat) (st : BuildState)
    (inv : Inv a0 n i st) (hi1 : 1 ≤ i) (hin : i < n)
    (hd : (a0 i).depth - (a0 (i - 1)).depth = 1)
    (hdl : (a0 (i - 1)).depth = 0) :
    Inv a0 n (i + 1) ⟨assignParent st.arena i (i - 1), st.stack⟩ := by
  have hdpos : 0 < (a0 i).depth := by omega
  have hlen1 : st.stack.length = 1 := inv.slenRoot (by omega)
  have hpd : (a0 (i - 1)).depth = (a0 i).depth - 1 := by omega
  have hpnear : ∀ k, i - 1 < k → k < i → (a0 k).depth ≠ (a0 i).depth - 1 := by
    intro k h1 h2
    omega
  obtain ⟨hdepEq, hprevEq, huntouched, hparents, hchildlt⟩ :=
    inv_assign a0 n i st inv hin (i - 1) (by omega) hpd hpnear hdpos
  refine ⟨hdepEq, hprevEq, huntouched, ?_, ?_, ?_, ?_, ?_, hparents, hchildlt⟩
  · intro h
    simp only [Nat.add_sub_cancel] at h
    omega
  · intro _
    simp only [Nat.add_sub_cancel]
    omega
  · exact inv.sdepth
  · intro t ht
    exact Nat.lt_succ_of_lt (inv.slt t ht)
  · intro t ht k h1 h2
    by_cases hk : k = i
    · subst hk
      have ht' : t < st.stack.length := ht
      omega
    · exact inv.srecent t ht k h1 (by omega)

theorem inv_step_down_push (a0 : Arena) (n i : Nat) (st : BuildState)
    (inv : Inv a0 n i st) (hi1 : 1 ≤ i) (hin : i < n)
    (hd : (a0 i).depth - (a0 (i - 1)).depth = 1)
    (hdl : 0 < (a0 (i - 1)).depth) :
    Inv a0 n (i + 1) ⟨assignParent st.arena i (i - 1), st.stack ++ [i - 1]⟩ := by
  have hdpos : 0 < (a0 i).depth := by omega
  have hlen : (st.stack.length : Int) = (a0 (i - 1)).depth := inv.slenDeep hdl
  have hpd : (a0 (i - 1)).depth = (a0 i).depth - 1 := by omega
  have hpnear : ∀ k, i - 1 < k → k < i → (a0 k).depth ≠ (a0 i).depth - 1 := by
    intro k h1 h2
    omega
  obtain ⟨hdepEq, hprevEq, huntouched, hparents, hchildlt⟩ :=
    inv_assign a0 n i st inv hin (i - 1) (by omega) hpd hpnear hdpos
  refine ⟨hdepEq, hprevEq, huntouched, ?_, ?_, ?_, ?_, ?_, hparents, hchildlt⟩
  · intro h
    simp only [Nat.add_sub_cancel] at h
    omega
  · intro _
    simp only [Nat.add_sub_cancel, List.length_append, List.length_cons,
      List.length_nil]
    push_cast
    omega
  · intro t ht
    by_cases htl : t < st.stack.length
    · have hq : (st.stack ++ [i - 1]).get ⟨t, ht⟩ = st.stack.get ⟨t, htl⟩ := by
        simp [List.get_eq_getElem, List.getElem_append_left htl]
      rw [hq]
      exact inv.sdepth t htl
    · have htl2 : t = st.stack.length := by
        simp only [List.length_append, List.length_cons, List.length_nil] at ht
        omega
      subst htl2
      have hq : (st.stack ++ [i - 1]).get ⟨st.stack.length, ht⟩ = i - 1 := by
        simp [List.get_eq_getElem]
      rw [hq]
      omega
  · intro t ht
    by_cases htl : t < st.stack.length
    · have hq : (st.stack ++ [i - 1]).get ⟨t, ht⟩ = st.stack.get ⟨t, htl⟩ := by
        simp [List.get_eq_getElem, List.getElem_append_left htl]
      rw [hq]
      exact Nat.lt_succ_of_lt (inv.slt t htl)
    · have htl2 : t = st.stack.length := by
        simp only [List.length_append, List.length_cons, List.length_nil] at ht
        omega
      subst htl2
      have hq : (st.stack ++ [i - 1]).get ⟨st.stack.length, ht⟩ = i - 1 := by
        simp [List.get_eq_getElem]
      rw [hq]
      omega
  · intro t ht k h1 h2
    by_cases htl : t < st.stack.length
    · have hq : (st.stack ++ [i - 1]).get ⟨t, ht⟩ = st.stack.get ⟨t, htl⟩ := by
        simp [List.get_eq_getElem, List.getElem_append_left htl]
      rw [hq] at h1
      by_cases hk : k = i
      · subst hk
        omega
      · exact inv.srecent t htl k h1 (by omega)
    · have htl2 : t = st.stack.length := by
        simp only [List.length_append, List.length_cons, List.length_nil] at ht
        omega
      subst htl2
      have hq : (st.stack ++ [i - 1]).get ⟨st.stack.length, ht⟩ = i - 1 := by
        simp [List.get_eq_getElem]
      rw [hq] at h1
      have hk : k = i := by omega
      subst hk
      omega

/-- A successful step: when the depth delta at node `i` is at most `1`
(or the node is a root), `stepNode` succeeds and preserves the
invariant. -/
theorem step_ok (a0 : Arena) (n i : Nat) (st : BuildState) (wf : WfInput a0 n)
    (inv : Inv a0 n i st) (hi1 : 1 ≤ i) (hin : i < n)
    (hgood : (a0 i).depth - (a0 (i - 1)).depth ≤ 1) :
    ∃ st', stepNode st i = .ok st' ∧ Inv a0 n (i + 1) st' := by
  by_cases h0 : (a0 i).depth = 0
  · refine ⟨_, stepNode_root st i ?_, inv_step_root a0 n i st wf inv hin h0⟩
    rw [inv.depthEq]
    exact h0
  · have hprev : (st.arena i).previous_node = some (i - 1) := by
      rw [inv.prevEq]
      exact wf.linked i hin hi1
    have hval : (st.arena i).depth - (st.arena (i - 1)).depth
        = (a0 i).depth - (a0 (i - 1)).depth := by
      rw [inv.depthEq, inv.depthEq]
    have h0' : (st.arena i).depth ≠ 0 := by
      rw [inv.depthEq]
      exact h0
    rcases lt_trichotomy ((a0 i).depth - (a0 (i - 1)).depth) 0 with hlt | heq | hgt
    · obtain ⟨p, hlast, hinv⟩ := inv_step_neg a0 n i st wf inv hi1 hin h0 hlt
      exact ⟨_, stepNode_neg st i (i - 1) p _ h0' hprev hval hlt hlast, hinv⟩
    · obtain ⟨p, hlast, hinv⟩ := inv_step_same a0 n i st wf inv hi1 hin h0 heq
      exact ⟨_, stepNode_same st i (i - 1) p h0' hprev (by rw [hval]; exact heq)
        hlast, hinv⟩
    · have h1 : (a0 i).depth - (a0 (i - 1)).depth = 1 := by omega
      by_cases hdl : (a0 (i - 1)).depth = 0
      · exact ⟨_, stepNode_down_nopush st i (i - 1) h0' hprev (by rw [hval]; exact h1)
          (by rw [inv.depthEq]; omega),
          inv_step_down_nopush a0 n i st inv hi1 hin h1 hdl⟩
      · have hdl' : 0 < (a0 (i - 1)).depth := by
          have := wf.nonneg (i - 1) (by omega)
          omega
        exact ⟨_, stepNode_down_push st i (i - 1) h0' hprev (by rw [hval]; exact h1)
          (by rw [inv.depthEq]; exact hdl),
          inv_step_down_push a0 n i st inv hi1 hin h1 hdl'⟩

/-- A failing step: a depth delta of `2` or more at node `i` makes
`stepNode` raise the `invalid depth delta` error carrying that delta. -/
theorem step_bad (a0 : Arena) (n i : Nat) (st : BuildState) (wf : WfInput a0 n)
    (inv : Inv a0 n i st) (hi1 : 1 ≤ i) (hin : i < n)
    (hbad : 1 < (a0 i).depth - (a0 (i - 1)).depth) :
    stepNode st i = .error (.invalidDelta ((a0 i).depth - (a0 (i - 1)).depth)) := by
  have h0 : (a0 i).depth ≠ 0 := by
    have := wf.nonneg (i - 1) (by omega)
    omega
  have hprev : (st.arena i).previous_node = some (i - 1) := by
    rw [inv.prevEq]
    exact wf.linked i hin hi1
  have hval : (st.arena i).depth - (st.arena (i - 1)).depth
      = (a0 i).depth - (a0 (i - 1)).depth := by
    rw [inv.depthEq, inv.depthEq]
  exact stepNode_bad st i (i - 1) _ (by rw [inv.depthEq]; exact h0) hprev hval hbad

/-- Running the loop to completion over a region with no skip-level
jumps preserves the invariant up to `n`. -/
theorem buildLoop_ok (a0 : Arena) (n : Nat) (wf : WfInput a0 n) :
    ∀ (fuel i : Nat) (st : BuildState), 1 ≤ i → i + fuel = n → Inv a0 n i st →
      (∀ k, k < n → i ≤ k → (a0 k).depth - (a0 (k - 1)).depth ≤ 1) →
      ∃ st', buildLoop fuel i st = .ok st' ∧ Inv a0 n n st' := by
  intro fuel
  induction fuel with
  | zero =>
    intro i st h1 hn inv _
    refine ⟨st, rfl, ?_⟩
    rwa [show i = n by omega] at inv
  | succ f ih =>
    intro i st h1 hn inv hgood
    obtain ⟨st', hstep, inv'⟩ := step_ok a0 n i st wf inv h1 (by omega)
      (hgood i (by omega) le_rfl)
    simp only [buildLoop, hstep]
    exact ih (i + 1) st' (by omega) (by omega) inv'
      (fun k hk hik => hgood k hk (by omega))

/-- Running the loop over a region whose first skip-level jump sits at
position `j` ends in the `invalid depth delta` error for `j`'s delta. -/
theorem buildLoop_bad (a0 : Arena) (n j : Nat) (wf : WfInput a0 n) (hjn : j < n)
    (hbad : 1 < (a0 j).depth - (a0 (j - 1)).depth) :
    ∀ (fuel i : Nat) (st : BuildState), 1 ≤ i → i ≤ j → i + fuel = n →
      Inv a0 n i st →
      (∀ k, k < j → i ≤ k → (a0 k).depth - (a0 (k - 1)).depth ≤ 1) →
      buildLoop fuel i st
        = .error (.invalidDelta ((a0 j).depth - (a0 (j - 1)).depth)) := by
  intro fuel
  induction fuel with
  | zero =>
    intro i st h1 hij hn inv _
    omega
  | succ f ih =>
    intro i st h1 hij hn inv hpre
    by_cases hji : i = j
    · subst hji
      have hstep := step_bad a0 n i st wf inv h1 (by omega) hbad
      simp only [buildLoop, hstep]
    · obtain ⟨st', hstep, inv'⟩ := step_ok a0 n i st wf inv h1 (by omega)
        (hpre i (by omega) le_rfl)
      simp only [buildLoop, hstep]
      exact ih (i + 1) st' (by omega) (by omega) (by omega) inv'
        (fun k hk hik => hpre k hk (by omega))

/-- The first iteration of `populate_hierarchy` on well-formed input:
node `0` is a root, so the loop resets the stack to `[0]`, and the
invariant holds at position `1`. -/
theorem build_entry (a0 : Arena) (n : Nat) (hn : 0 < n) (wf : WfInput a0 n) :
    buildLoop n 0 ⟨a0, []⟩ = buildLoop (n - 1) 1 ⟨a0, [0]⟩ ∧
      Inv a0 n 1 ⟨a0, [0]⟩ := by
  constructor
  · have hstep : stepNode ⟨a0, []⟩ 0 = .ok ⟨a0, [0]⟩ := stepNode_root ⟨a0, []⟩ 0 wf.first
    rw [show n = (n - 1) + 1 by omega]
    simp only [buildLoop, hstep]
    norm_num
  · refine ⟨fun _ => rfl, fun _ => rfl, fun k _ => rfl, ?_, ?_, ?_, ?_, ?_, ?_, ?_⟩
    · intro _
      rfl
    · intro hpos
      rw [wf.first] at hpos
      omega
    · intro t ht
      have ht0 : t = 0 := by simpa using ht
      subst ht0
      simpa using wf.first
    · intro t ht
      have ht0 : t = 0 := by simpa using ht
      subst ht0
      simp only [List.get]
      omega
    · intro t ht k h1 h2
      have ht0 : t = 0 := by simpa using ht
      subst ht0
      simp only [List.get] at h1
      omega
    · intro j hj
      have hj0 : j = 0 := by omega
      subst hj0
      refine ⟨fun _ => (wf.clean 0 hn).1, fun hpos => ?_⟩
      rw [wf.first] at hpos
      omega
    · intro j hjn c hc
      rw [(wf.clean j hjn).2] at hc
      simp at hc

theorem transGen_up (r : Nat → Nat → Prop) (n : Nat)
    (h : ∀ x y, x < n → r x y → x < y ∧ y < n) :
    ∀ x y, Relation.TransGen r x y → x < n → x < y ∧ y < n := by
  intro x y hxy
  induction hxy with
  | single h1 =>
    intro hx
    exact h _ _ hx h1
  | tail hxy h1 ih =>
    intro hx
    obtain ⟨h2, h3⟩ := ih hx
    obtain ⟨h4, h5⟩ := h _ _ h3 h1
    exact ⟨by omega, h5⟩

theorem transGen_down (r : Nat → Nat → Prop) (n : Nat)
    (h : ∀ x y, x < n → r x y → y < x ∧ y < n) :
    ∀ x y, Relation.TransGen r x y → x < n → y < x ∧ y < n := by
  intro x y hxy
  induction hxy with
  | single h1 =>
    intro hx
    exact h _ _ hx h1
  | tail hxy h1 ih =>
    intro hx
    obtain ⟨h2, h3⟩ := ih hx
    obtain ⟨h4, h5⟩ := h _ _ h3 h1
    exact ⟨by omega, h5⟩

/-- C1: on well-formed input — sequence-linked, non-negative depths,
first node of depth 0, every depth increase between consecutive nodes
exactly `+1` — `populate_hierarchy` succeeds; every node of depth `> 0`
gets as parent the nearest preceding node in sequence order whose depth
is exactly one less; consequently every node `N` with a parent `P`
satisfies `depth(N) = depth(P) + 1`. -/
theorem populate_hierarchy_nearest_parent (a0 : Arena) (n : Nat) (hn : 0 < n)
    (wf : WfInput a0 n)
    (hsteps : ∀ k, k < n → 1 ≤ k → (a0 k).depth - (a0 (k - 1)).depth ≤ 1) :
    ∃ a, populate_hierarchy n a0 = .ok a ∧
      (∀ j, j < n → 0 < (a0 j).depth → ∃ p, (a j).parent = some p ∧ p < j ∧
        (a0 p).depth = (a0 j).depth - 1 ∧
        ∀ k, p < k → k < j → (a0 k).depth ≠ (a0 j).depth - 1) ∧
      (∀ j p, j < n → (a j).parent = some p → (a j).depth = (a p).depth + 1) := by
  obtain ⟨hentry, hinv1⟩ := build_entry a0 n hn wf
  obtain ⟨st', hloop, hinvn⟩ := buildLoop_ok a0 n wf (n - 1) 1 ⟨a0, [0]⟩ le_rfl
    (by omega) hinv1 (fun k hk h1k => hsteps k hk h1k)
  refine ⟨st'.arena, ?_, ?_, ?_⟩
  · unfold populate_hierarchy
    rw [hentry, hloop]
    rfl
  · intro j hj hdj
    exact (hinvn.parents j hj).2 hdj
  · intro j p hj hp
    by_cases h0 : (a0 j).depth = 0
    · have hnone := (hinvn.parents j hj).1 h0
      rw [hnone] at hp
      exact absurd hp (by simp)
    · have hdj : 0 < (a0 j).depth := by
        have := wf.nonneg j hj
        omega
      obtain ⟨p', hp', _, hdp, _⟩ := (hinvn.parents j hj).2 hdj
      rw [hp] at hp'
      have hpp : p = p' := by
        injection hp'
      subst hpp
      rw [hinvn.depthEq j, hinvn.depthEq p]
      omega

/-- Witness for C1 at the concrete sequence-linked input with depths
`[0, 1, 2, 1]`. -/
theorem populate_hierarchy_nearest_parent_witness :
    (0 < 4) ∧ WfInput abcdArena 4 ∧
    (∀ k, k < 4 → 1 ≤ k → (abcdArena k).depth - (abcdArena (k - 1)).depth ≤ 1) ∧
    (∃ a, populate_hierarchy 4 abcdArena = .ok a ∧
      (∀ j, j < 4 → 0 < (abcdArena j).depth → ∃ p, (a j).parent = some p ∧ p < j ∧
        (abcdArena p).depth = (abcdArena j).depth - 1 ∧
        ∀ k, p < k → k < j → (abcdArena k).depth ≠ (abcdArena j).depth - 1) ∧
      (∀ j p, j < 4 → (a j).parent = some p → (a j).depth = (a p).depth + 1)) :=
  ⟨by decide, ⟨by decide, by decide, by decide, by decide⟩, by decide,
    populate_hierarchy_nearest_parent abcdArena 4 (by decide)
      ⟨by decide, by decide, by decide, by decide⟩ (by decide)⟩

/-- C9: after `populate_hierarchy` runs on well-formed input, no node
appears among its own transitive children, for every node of the
forest — in both of the claim's equivalent readings: the transitive
closure of membership in `children` lists never returns to its starting
node (every recorded child sits at a strictly larger sequence position
than its parent), and, equivalently, following `parent` links from any
node never returns to that node (every `parent` link points strictly
earlier in the sequence). -/
theorem populate_hierarchy_no_cycles (a0 : Arena) (n : Nat) (hn : 0 < n)
    (wf : WfInput a0 n)
    (hsteps : ∀ k, k < n → 1 ≤ k → (a0 k).depth - (a0 (k - 1)).depth ≤ 1) :
    ∃ a, populate_hierarchy n a0 = .ok a ∧
      (∀ j, j < n → ¬ Relation.TransGen (fun x y => y ∈ (a x).children) j j) ∧
      (∀ j, j < n → ¬ Relation.TransGen (fun x y => (a x).parent = some y) j j) := by
  obtain ⟨hentry, hinv1⟩ := build_entry a0 n hn wf
  obtain ⟨st', hloop, hinvn⟩ := buildLoop_ok a0 n wf (n - 1) 1 ⟨a0, [0]⟩ le_rfl
    (by omega) hinv1 (fun k hk h1k => hsteps k hk h1k)
  refine ⟨st'.arena, ?_, ?_, ?_⟩
  · unfold populate_hierarchy
    rw [hentry, hloop]
    rfl
  · intro j hj hcontra
    have := transGen_up (fun x y => y ∈ (st'.arena x).children) n
      (fun x y hx hr => hinvn.childlt x hx y hr) j j hcontra hj
    omega
  · intro j hj hcontra
    have hstep : ∀ x y, x < n → (st'.arena x).parent = some y → y < x ∧ y < n := by
      intro x y hx hp
      by_cases h0 : (a0 x).depth = 0
      · rw [(hinvn.parents x hx).1 h0] at hp
        exact absurd hp (by simp)
      · have hdx : 0 < (a0 x).depth := by
          have := wf.nonneg x hx
          omega
        obtain ⟨p', hp', hlt, _, _⟩ := (hinvn.parents x hx).2 hdx
        rw [hp'] at hp
        have hyp : p' = y := by
          injection hp
        subst hyp
        exact ⟨hlt, by omega⟩
    have := transGen_down (fun x y => (st'.arena x).parent = some y) n hstep
      j j hcontra hj
    omega

/-- Witness for C9 at the concrete sequence-linked input with depths
`[0, 1, 2, 1]`: the built forest has no children-membership cycle and no
parent-link cycle through any of its four nodes. -/
theorem populate_hierarchy_no_cycles_witness :
    (0 < 4) ∧ WfInput abcdArena 4 ∧
    (∀ k, k < 4 → 1 ≤ k → (abcdArena k).depth - (abcdArena (k - 1)).depth ≤ 1) ∧
    (∃ a, populate_hierarchy 4 abcdArena = .ok a ∧
      (∀ j, j < 4 → ¬ Relation.TransGen (fun x y => y ∈ (a x).children) j j) ∧
      (∀ j, j < 4 → ¬ Relation.TransGen (fun x y => (a x).parent = some y) j j)) :=
  ⟨by decide, ⟨by decide, by decide, by decide, by decide⟩, by decide,
    populate_hierarchy_no_cycles abcdArena 4 (by decide)
      ⟨by decide, by decide, by decide, by decide⟩ (by decide)⟩

/-- C2 (amended): on a sequence-linked input with non-negative depths
whose first node is a root, if the first skip-level step (depth delta
`≥ 2`) sits at position `j`, `populate_hierarchy` fails with the
`invalid depth delta` error carrying exactly that delta — no ancestor is
coerced or guessed for the offending node. -/
theorem populate_hierarchy_invalid_delta (a0 : Arena) (n j : Nat) (hn : 0 < n)
    (wf : WfInput a0 n) (hj1 : 1 ≤ j) (hjn : j < n)
    (hpre : ∀ k, k < j → 1 ≤ k → (a0 k).depth - (a0 (k - 1)).depth ≤ 1)
    (hbad : 1 < (a0 j).depth - (a0 (j - 1)).depth) :
    populate_hierarchy n a0
      = .error (.invalidDelta ((a0 j).depth - (a0 (j - 1)).depth)) := by
  obtain ⟨hentry, hinv1⟩ := build_entry a0 n hn wf
  have hloop := buildLoop_bad a0 n j wf hjn hbad (n - 1) 1 ⟨a0, [0]⟩ le_rfl hj1
    (by omega) hinv1 (fun k hk h1k => hpre k hk h1k)
  unfold populate_hierarchy
  rw [hentry, hloop]
  rfl

/-- Witness for C2 (amended) at the spec's own example: the
sequence-linked list with depths `[0, 2]` fails with
`invalid depth delta 2`. -/
theorem populate_hierarchy_invalid_delta_witness :
    (0 < 2) ∧ WfInput zeroTwoArena 2 ∧
    (∀ k, k < 1 → 1 ≤ k → (zeroTwoArena k).depth - (zeroTwoArena (k - 1)).depth ≤ 1) ∧
    (1 < (zeroTwoArena 1).depth - (zeroTwoArena 0).depth) ∧
    populate_hierarchy 2 zeroTwoArena
      = .error (.invalidDelta ((zeroTwoArena 1).depth - (zeroTwoArena 0).depth)) :=
  ⟨by decide, ⟨by decide, by decide, by decide, by decide⟩, by decide, by decide,
    populate_hierarchy_invalid_delta zeroTwoArena 2 1 (by decide)
      ⟨by decide, by decide, by decide, by decide⟩ (by decide) (by decide)
      (by decide) (by decide)⟩

/-- C2 (counterexample): the sequence-linked two-node list with depths
`[1, 3]` contains a `+2` depth step (from node 0 to node 1), yet
`populate_hierarchy` does not fail with the `invalid depth delta`
`ValueError`: processing node 0 (depth 1, whose `previous_node` is the
wrapped-around last node of depth 3, giving delta `-2`) pops the empty
parent stack and dies with a bare `IndexError` first. -/
theorem populate_hierarchy_jump_counterexample :
    (jumpFromOneArena 1).depth - (jumpFromOneArena 0).depth = 2 ∧
    buildError 2 jumpFromOneArena = some PyError.indexError ∧
    raisesInvalidDelta 2 jumpFromOneArena = false := by
  decide

end Jacob
